import Mathlib

/-!
Verification development for the market-watcher data-acquisition pipeline
(`main.py`).  The SQLite cache, the provider adapters and the worker loop
(`DataWorker.run`) are embedded shallowly:

* calendar dates are day numbers (`Nat`); ISO-8601 date strings compare
  lexicographically exactly as their day numbers compare, so SQL `BETWEEN`
  and `ORDER BY Date ASC` on the TEXT column are ordinary `Nat` comparisons;
* SQL `REAL` values are modelled as `ℚ` (`NULL` as `Option.none`);
* network calls (`pycoingecko`, `yfinance`) are an oracle: a response or a
  raised exception per request, fixed for the duration of one run;
* Qt signals (`finished`, `error`, `progress`, `log`) become explicit event
  lists in the run output.
-/

/-- A row of the `crypto_prices` table: `(coin_id TEXT, Date TEXT, price REAL)`
with `PRIMARY KEY (coin_id, Date)`. -/
structure CryptoRow where
  coin_id : String
  date : Nat
  price : Option ℚ
deriving DecidableEq

/-- A row of the `fiat_rates` table: `(code TEXT, Date TEXT, Close REAL)`
with `PRIMARY KEY (code, Date)`. -/
structure FiatRow where
  code : String
  date : Nat
  close : Option ℚ
deriving DecidableEq

abbrev CryptoTable := List CryptoRow

abbrev FiatTable := List FiatRow

/-- `INSERT OR REPLACE INTO crypto_prices`: any existing row with the same
primary key `(coin_id, Date)` is deleted and the new row inserted. -/
def upsertCrypto (tbl : CryptoTable) (r : CryptoRow) : CryptoTable :=
  tbl.filter (fun x => decide (¬(x.coin_id = r.coin_id ∧ x.date = r.date))) ++ [r]

/-- `INSERT OR REPLACE INTO fiat_rates`, keyed by `(code, Date)`. -/
def upsertFiat (tbl : FiatTable) (r : FiatRow) : FiatTable :=
  tbl.filter (fun x => decide (¬(x.code = r.code ∧ x.date = r.date))) ++ [r]

/-- An input point handed to a `save_*_cache` call: the parsed `Date` cell
(`none` when `date.isoformat()` / parsing raises, in which case the row is
skipped by the `try/except: continue`) and the value cell (`None` for a
missing price). -/
abbrev RawPt := Option Nat × Option ℚ

/-- `save_crypto_cache(coin_id, df)`: each parsable row becomes an
`INSERT OR REPLACE`, executed in order (`executemany`); unparsable rows are
skipped; an empty frame is a no-op. -/
def save_crypto_cache (tbl : CryptoTable) (coin_id : String) (pts : List RawPt) :
    CryptoTable :=
  (pts.filterMap (fun p => p.1.map (fun d => CryptoRow.mk coin_id d p.2))).foldl
    upsertCrypto tbl

/-- `save_fiat_cache(code, df)`: same shape as `save_crypto_cache`. -/
def save_fiat_cache (tbl : FiatTable) (code : String) (pts : List RawPt) :
    FiatTable :=
  (pts.filterMap (fun p => p.1.map (fun d => FiatRow.mk code d p.2))).foldl
    upsertFiat tbl

/-- The `ORDER BY Date ASC` relation on crypto rows. -/
def crDateLe (a b : CryptoRow) : Prop := a.date ≤ b.date

instance : DecidableRel crDateLe := fun a b => inferInstanceAs (Decidable (a.date ≤ b.date))

instance : IsTotal CryptoRow crDateLe := ⟨fun a b => Nat.le_total a.date b.date⟩

instance : IsTrans CryptoRow crDateLe := ⟨fun _ _ _ h h' => Nat.le_trans h h'⟩

/-- The `ORDER BY Date ASC` relation on fiat rows. -/
def fiDateLe (a b : FiatRow) : Prop := a.date ≤ b.date

instance : DecidableRel fiDateLe := fun a b => inferInstanceAs (Decidable (a.date ≤ b.date))

instance : IsTotal FiatRow fiDateLe := ⟨fun a b => Nat.le_total a.date b.date⟩

instance : IsTrans FiatRow fiDateLe := ⟨fun _ _ _ h h' => Nat.le_trans h h'⟩

/-- `load_crypto_cache(coin_id, start_date, end_date)`:
`SELECT Date, price FROM crypto_prices WHERE coin_id = ? AND Date BETWEEN ? AND ?
ORDER BY Date ASC`, returned as `(timestamp, price)` pairs (empty frame when
nothing matches). -/
def load_crypto_cache (tbl : CryptoTable) (coin_id : String) (s e : Nat) :
    List (Nat × Option ℚ) :=
  ((tbl.filter (fun r => decide (r.coin_id = coin_id ∧ s ≤ r.date ∧ r.date ≤ e))).insertionSort
      crDateLe).map (fun r => (r.date, r.price))

/-- `load_fiat_cache(code, start_date, end_date)`: analogous `SELECT` over
`fiat_rates`. -/
def load_fiat_cache (tbl : FiatTable) (code : String) (s e : Nat) :
    List (Nat × Option ℚ) :=
  ((tbl.filter (fun r => decide (r.code = code ∧ s ≤ r.date ∧ r.date ≤ e))).insertionSort
      fiDateLe).map (fun r => (r.date, r.close))

/-- The primary-key invariant of both tables: no `(entity, date)` pair occurs
twice. -/
def CryptoNoDupKeys (tbl : CryptoTable) : Prop :=
  (tbl.map (fun r => (r.coin_id, r.date))).Nodup

/-- All rows of the `crypto_prices` table for a given key, in table order. -/
def cryptoRowsFor (tbl : CryptoTable) (cid : String) (d : Nat) : List (Option ℚ) :=
  (tbl.filter (fun r => decide (r.coin_id = cid ∧ r.date = d))).map (fun r => r.price)

/-! ## Provider oracle and per-entity fetch logic -/

/-- One entry of the `get_coins_markets` ranking response. -/
structure Coin where
  id : String
  name : String
deriving DecidableEq

/-- The external world as observed by one run: the ranking call, the
CoinGecko chart call per coin id, the `yf.download` call per ticker string,
and whether each `save_*_cache` call raises (`some msg`) or succeeds.
`Except.error` models a raised exception. -/
structure Oracle where
  rank : Except String (List Coin)
  chart : String → Except String (List (Nat × ℚ))
  download : String → Except String (List (Nat × Option ℚ))
  cryptoSaveFail : String → Option String
  fiatSaveFail : String → Option String

/-- Calendar day of an epoch-millisecond timestamp. -/
def dayOf (ms : Nat) : Nat := ms / 86400000

/-- Mean of the samples falling on day `d` (`resample("1D").mean()`). -/
def dayMean (samples : List (Nat × ℚ)) (d : Nat) : ℚ :=
  let vs := (samples.filter (fun p => decide (dayOf p.1 = d))).map Prod.snd
  vs.sum / vs.length

/-- `df.set_index("timestamp").resample("1D").mean().dropna()`: one mean value
per calendar day that has at least one sample, days ascending. -/
def resampleDaily (samples : List (Nat × ℚ)) : List (Nat × ℚ) :=
  (((samples.map (fun p => dayOf p.1)).dedup).insertionSort (· ≤ ·)).map
    (fun d => (d, dayMean samples d))

/-- `series.mean()` on an all-numeric column: `none` on an empty column. -/
def meanQ (xs : List ℚ) : Option ℚ :=
  if xs = [] then none else some (xs.sum / xs.length)

/-- `pd.to_numeric(col).dropna().mean()`: mean of the non-missing values,
`none` when no numeric value exists. -/
def meanOpt (xs : List (Option ℚ)) : Option ℚ :=
  meanQ (xs.filterMap id)

/-- `pd.date_range(s, e)`: the days from `s` to `e` inclusive (empty when
`s > e`). -/
def dateRange (s e : Nat) : List Nat :=
  (List.range (e + 1 - s)).map (fun i => s + i)

/-- The crypto fetch try-block (`get_coin_market_chart_range_by_id` plus
resampling): returns `(avg_price, hist_df, logs)`.  An exception degrades to
`(None, empty, fail log)`; an empty price list to `(None, empty)`. -/
def cryptoFetch (o : Oracle) (cid nm : String) :
    Option ℚ × List (Nat × ℚ) × List String :=
  match o.chart cid with
  | .error e => (none, [], ["Failed loading " ++ nm ++ ": " ++ e])
  | .ok prices =>
    if prices = [] then (none, [], [])
    else
      let h := resampleDaily prices
      (meanQ (h.map Prod.snd), h, [])

/-- One element of `result["cryptos"]`. -/
structure CryptoSummary where
  id : String
  name : String
  avg_price : Option ℚ
  history : List (Nat × ℚ)
deriving DecidableEq

/-- One element of `result["fiats"]`. -/
structure FiatSummary where
  code : String
  name : String
  avg_rate : Option ℚ
  history : List (Nat × Option ℚ)
deriving DecidableEq

/-- The crypto summary appended for a ranked coin. -/
def cryptoSummaryOf (o : Oracle) (c : Coin) : CryptoSummary :=
  let f := cryptoFetch o c.id c.name
  ⟨c.id, c.name, f.1, f.2.1⟩

/-- Result of the fiat fetch try-block: average, history, log lines, and the
number of `yf.download` network calls made. -/
structure FiatFetch where
  avg_rate : Option ℚ
  history : List (Nat × Option ℚ)
  logs : List String
  calls : Nat
deriving DecidableEq

/-- The fiat fetch try-block (lines 216-244 of `main.py`): degenerate
base-currency branch, direct ticker, inverted-ticker fallback with
reciprocal transform, and exception handling. -/
def processFiatFetch (o : Oracle) (base code nm : String) (s e : Nat) : FiatFetch :=
  if code = base then
    { avg_rate := some 1
      history := (dateRange s e).map (fun d => (d, some (1 : ℚ)))
      logs := []
      calls := 0 }
  else
    match o.download (code ++ base ++ "=X") with
    | .error err =>
      { avg_rate := none, history := []
        logs := ["Failed loading fiat " ++ nm ++ ": " ++ err], calls := 1 }
    | .ok df =>
      if df = [] then
        match o.download (base ++ code ++ "=X") with
        | .error err =>
          { avg_rate := none, history := []
            logs := ["Failed loading fiat " ++ nm ++ ": " ++ err], calls := 2 }
        | .ok dfInv =>
          if dfInv = [] then
            { avg_rate := none, history := [], logs := [], calls := 2 }
          else
            let df2 := dfInv.map (fun p => (p.1, p.2.map (fun x => 1 / x)))
            { avg_rate := meanOpt (df2.map Prod.snd), history := df2
              logs := [], calls := 2 }
      else
        { avg_rate := meanOpt (df.map Prod.snd), history := df
          logs := [], calls := 1 }

/-- The fiat summary appended for a `(code, name)` pair. -/
def fiatSummaryOf (o : Oracle) (base : String) (s e : Nat) (cn : String × String) :
    FiatSummary :=
  let f := processFiatFetch o base cn.1 cn.2 s e
  ⟨cn.1, cn.2, f.avg_rate, f.history⟩

/-- The hardcoded fiat universe. -/
def fiatsList : List (String × String) :=
  [("EUR", "Euro"), ("JPY", "Japanese Yen"), ("GBP", "British Pound"),
   ("AUD", "Australian Dollar"), ("CAD", "Canadian Dollar"),
   ("CHF", "Swiss Franc"), ("CNY", "Chinese Yuan"),
   ("HKD", "Hong Kong Dollar"), ("NZD", "New Zealand Dollar"),
   ("BRL", "Brazilian Real")]

/-! ## The worker loop (`DataWorker.run`) -/

/-- The mutable state threaded through the two entity loops: the growing
`result` dict, the emitted `log` and `progress` signals, both cache tables,
the number of network calls made so far, and the number of entities
completed (`done`), used to index reads of the cooperative stop flag. -/
structure RunSt where
  cryptos : List CryptoSummary
  fiats : List FiatSummary
  logs : List String
  progress : List (Nat × Nat)
  ctbl : CryptoTable
  ftbl : FiatTable
  calls : Nat
  done : Nat

/-- One iteration of the crypto loop (lines 155-193): log, fetch, attempt the
cache write (a raised save is caught and only logged), append the summary,
emit `(idx + 1, total_coins)`. -/
def cryptoStep (o : Oracle) (tc idx : Nat) (c : Coin) (st : RunSt) : RunSt :=
  let loadLog := "Loading data for " ++ c.name ++ " (" ++ c.id ++ ") [" ++
    toString (idx + 1) ++ "/" ++ toString tc ++ "]"
  let f := cryptoFetch o c.id c.name
  let saveRes :=
    match o.cryptoSaveFail c.id with
    | some err => (st.ctbl, "Failed saving cache for " ++ c.name ++ ": " ++ err)
    | none => (save_crypto_cache st.ctbl c.id
        (f.2.1.map (fun (p : Nat × ℚ) => (some p.1, some p.2))),
        "Saved cache for " ++ c.name)
  { cryptos := st.cryptos ++ [cryptoSummaryOf o c]
    fiats := st.fiats
    logs := st.logs ++ [loadLog] ++ f.2.2 ++ [saveRes.2]
    progress := st.progress ++ [(idx + 1, tc)]
    ctbl := saveRes.1
    ftbl := st.ftbl
    calls := st.calls + 1
    done := st.done + 1 }

/-- The crypto loop: before each entity the stop flag is read (its value at
the `n`-th read is `stopped n`); a set flag breaks out of the loop. -/
def cryptoPhase (o : Oracle) (tc : Nat) (stopped : Nat → Bool) :
    List Coin → Nat → RunSt → RunSt
  | [], _, st => st
  | c :: rest, idx, st =>
    if stopped st.done then st
    else cryptoPhase o tc stopped rest (idx + 1) (cryptoStep o tc idx c st)

/-- One iteration of the fiat loop (lines 212-259): log, fetch (degenerate /
direct / inverse logic in `processFiatFetch`), attempt the cache write,
append the summary, emit `(total_coins + idx + 1, total_steps)`. -/
def fiatStep (o : Oracle) (base : String) (s e tc tf ts idx : Nat)
    (cn : String × String) (st : RunSt) : RunSt :=
  let loadLog := "Loading fiat data for " ++ cn.2 ++ " (" ++ cn.1 ++ ") [" ++
    toString (idx + 1) ++ "/" ++ toString tf ++ "]"
  let f := processFiatFetch o base cn.1 cn.2 s e
  let saveRes :=
    match o.fiatSaveFail cn.1 with
    | some err => (st.ftbl, "Failed saving cache for fiat " ++ cn.2 ++ ": " ++ err)
    | none => (save_fiat_cache st.ftbl cn.1
        (f.history.map (fun (p : Nat × Option ℚ) => (some p.1, p.2))),
        "Saved cache for fiat " ++ cn.2)
  { cryptos := st.cryptos
    fiats := st.fiats ++ [fiatSummaryOf o base s e cn]
    logs := st.logs ++ [loadLog] ++ f.logs ++ [saveRes.2]
    progress := st.progress ++ [(tc + idx + 1, ts)]
    ctbl := st.ctbl
    ftbl := saveRes.1
    calls := st.calls + f.calls
    done := st.done + 1 }

/-- The fiat loop, continuing the stop-flag reads from the crypto loop. -/
def fiatPhase (o : Oracle) (base : String) (s e tc tf ts : Nat)
    (stopped : Nat → Bool) : List (String × String) → Nat → RunSt → RunSt
  | [], _, st => st
  | cn :: rest, idx, st =>
    if stopped st.done then st
    else fiatPhase o base s e tc tf ts stopped rest (idx + 1)
      (fiatStep o base s e tc tf ts idx cn st)

/-- The `result` dict handed to `finished.emit`. -/
structure AcquisitionResult where
  cryptos : List CryptoSummary
  fiats : List FiatSummary
deriving DecidableEq

/-- Everything observable about one `DataWorker.run`: the terminal outcome
(`finished.emit` = `.ok`, `error.emit` = `.error`), the `log` and `progress`
signal streams, the final cache tables, and the network-call count. -/
structure RunOutput where
  outcome : Except String AcquisitionResult
  logs : List String
  progress : List (Nat × Nat)
  ctbl : CryptoTable
  ftbl : FiatTable
  calls : Nat

/-- `DataWorker.run`: the ranking call (a raised exception here escapes the
per-entity try-blocks and reaches the top-level handler, which emits `error`
with no partial result), then the crypto loop over the ranking result, then
the fiat loop over the fixed `fiats` list, then `finished.emit(result)`.
`base` is the already-uppercased base currency; `ctbl`/`ftbl` is the cache
contents at run start; the ranking network call is counted in `calls`. -/
def runWorker (o : Oracle) (s e : Nat) (base : String) (stopped : Nat → Bool)
    (ctbl : CryptoTable) (ftbl : FiatTable) : RunOutput :=
  match o.rank with
  | .error err => ⟨.error ("Error fetching data: " ++ err), [], [], ctbl, ftbl, 1⟩
  | .ok top =>
    let tc := top.length
    let st1 := cryptoPhase o tc stopped top 0 ⟨[], [], [], [], ctbl, ftbl, 1, 0⟩
    let tf := fiatsList.length
    let st2 := fiatPhase o base s e tc tf (tc + tf) stopped fiatsList 0 st1
    ⟨.ok ⟨st2.cryptos, st2.fiats⟩, st2.logs, st2.progress, st2.ctbl, st2.ftbl, st2.calls⟩

/-! ## Cache lemmas -/

lemma mem_load_crypto_cache {tbl : CryptoTable} {cid : String} {s e : Nat}
    {p : Nat × Option ℚ} :
    p ∈ load_crypto_cache tbl cid s e ↔
      ∃ r ∈ tbl, r.coin_id = cid ∧ s ≤ r.date ∧ r.date ≤ e ∧ p = (r.date, r.price) := by
  simp only [load_crypto_cache, List.mem_map, List.mem_insertionSort, List.mem_filter,
    decide_eq_true_eq]
  constructor
  · rintro ⟨r, ⟨hr, h1, h2, h3⟩, rfl⟩
    exact ⟨r, hr, h1, h2, h3, rfl⟩
  · rintro ⟨r, hr, h1, h2, h3, rfl⟩
    exact ⟨r, ⟨hr, h1, h2, h3⟩, rfl⟩

lemma load_crypto_cache_sorted (tbl : CryptoTable) (cid : String) (s e : Nat) :
    (load_crypto_cache tbl cid s e).Pairwise (fun a b => a.1 ≤ b.1) := by
  unfold load_crypto_cache
  rw [List.pairwise_map]
  exact List.sorted_insertionSort crDateLe _

lemma load_crypto_cache_eq_nil {tbl : CryptoTable} {cid : String} {s e : Nat}
    (h : ∀ r ∈ tbl, ¬(r.coin_id = cid ∧ s ≤ r.date ∧ r.date ≤ e)) :
    load_crypto_cache tbl cid s e = [] := by
  unfold load_crypto_cache
  have hf : tbl.filter (fun r => decide (r.coin_id = cid ∧ s ≤ r.date ∧ r.date ≤ e)) = [] :=
    List.filter_eq_nil_iff.2 (by intro a ha; simpa using h a ha)
  rw [hf]
  rfl

lemma mem_load_fiat_cache {tbl : FiatTable} {code : String} {s e : Nat}
    {p : Nat × Option ℚ} :
    p ∈ load_fiat_cache tbl code s e ↔
      ∃ r ∈ tbl, r.code = code ∧ s ≤ r.date ∧ r.date ≤ e ∧ p = (r.date, r.close) := by
  simp only [load_fiat_cache, List.mem_map, List.mem_insertionSort, List.mem_filter,
    decide_eq_true_eq]
  constructor
  · rintro ⟨r, ⟨hr, h1, h2, h3⟩, rfl⟩
    exact ⟨r, hr, h1, h2, h3, rfl⟩
  · rintro ⟨r, hr, h1, h2, h3, rfl⟩
    exact ⟨r, ⟨hr, h1, h2, h3⟩, rfl⟩

lemma load_fiat_cache_sorted (tbl : FiatTable) (code : String) (s e : Nat) :
    (load_fiat_cache tbl code s e).Pairwise (fun a b => a.1 ≤ b.1) := by
  unfold load_fiat_cache
  rw [List.pairwise_map]
  exact List.sorted_insertionSort fiDateLe _

lemma load_fiat_cache_eq_nil {tbl : FiatTable} {code : String} {s e : Nat}
    (h : ∀ r ∈ tbl, ¬(r.code = code ∧ s ≤ r.date ∧ r.date ≤ e)) :
    load_fiat_cache tbl code s e = [] := by
  unfold load_fiat_cache
  have hf : tbl.filter (fun r => decide (r.code = code ∧ s ≤ r.date ∧ r.date ≤ e)) = [] :=
    List.filter_eq_nil_iff.2 (by intro a ha; simpa using h a ha)
  rw [hf]
  rfl

lemma cryptoRowsFor_upsert_self (tbl : CryptoTable) (r : CryptoRow) :
    cryptoRowsFor (upsertCrypto tbl r) r.coin_id r.date = [r.price] := by
  unfold cryptoRowsFor upsertCrypto
  rw [List.filter_append, List.filter_filter]
  have h1 : tbl.filter (fun x =>
      decide (x.coin_id = r.coin_id ∧ x.date = r.date) &&
      decide (¬(x.coin_id = r.coin_id ∧ x.date = r.date))) = [] := by
    apply List.filter_eq_nil_iff.2
    intro a _
    by_cases h : a.coin_id = r.coin_id ∧ a.date = r.date <;> simp [h]
  rw [h1]
  simp

lemma upsertCrypto_nodupKeys {tbl : CryptoTable} (r : CryptoRow)
    (h : CryptoNoDupKeys tbl) : CryptoNoDupKeys (upsertCrypto tbl r) := by
  unfold CryptoNoDupKeys upsertCrypto
  rw [List.map_append, List.nodup_append]
  refine ⟨?_, by simp, ?_⟩
  · exact (h.sublist ((List.filter_sublist tbl).map _))
  · intro a ha
    simp only [List.mem_map, List.mem_filter, decide_eq_true_eq] at ha
    obtain ⟨x, ⟨_, hx⟩, rfl⟩ := ha
    simp only [List.map_cons, List.map_nil, List.mem_singleton]
    intro hc
    exact hx ⟨congrArg Prod.fst hc, congrArg Prod.snd hc⟩

lemma foldl_upsertCrypto_nodupKeys :
    ∀ (rows : List CryptoRow) (tbl : CryptoTable), CryptoNoDupKeys tbl →
      CryptoNoDupKeys (rows.foldl upsertCrypto tbl)
  | [], _, h => h
  | r :: rest, tbl, h =>
    foldl_upsertCrypto_nodupKeys rest (upsertCrypto tbl r) (upsertCrypto_nodupKeys r h)

lemma save_crypto_cache_nodupKeys (tbl : CryptoTable) (cid : String)
    (pts : List RawPt) (h : CryptoNoDupKeys tbl) :
    CryptoNoDupKeys (save_crypto_cache tbl cid pts) :=
  foldl_upsertCrypto_nodupKeys _ tbl h

lemma foldl_save_singleton_rowsFor (cid : String) (d : Nat) :
    ∀ (vs : List (Option ℚ)) (h : vs ≠ []) (tbl : CryptoTable),
      cryptoRowsFor (vs.foldl (fun t v => save_crypto_cache t cid [(some d, v)]) tbl) cid d
        = [vs.getLast h]
  | [v], _, tbl => by
    show cryptoRowsFor (save_crypto_cache tbl cid [(some d, v)]) cid d = [v]
    have h := cryptoRowsFor_upsert_self tbl ⟨cid, d, v⟩
    simpa [save_crypto_cache] using h
  | v :: v' :: rest, _, tbl => by
    rw [List.foldl_cons,
      foldl_save_singleton_rowsFor cid d (v' :: rest) (List.cons_ne_nil v' rest) _]
    simp [List.getLast_cons]

lemma foldl_upsertCrypto_disjoint :
    ∀ (rows : List CryptoRow) (tbl : CryptoTable),
      (rows.map (fun r => (r.coin_id, r.date))).Nodup →
      (∀ r ∈ rows, ∀ x ∈ tbl, ¬(x.coin_id = r.coin_id ∧ x.date = r.date)) →
      rows.foldl upsertCrypto tbl = tbl ++ rows
  | [], tbl, _, _ => by simp
  | r :: rest, tbl, hnd, hdis => by
    have hfe : upsertCrypto tbl r = tbl ++ [r] := by
      unfold upsertCrypto
      congr 1
      apply List.filter_eq_self.2
      intro a ha
      simp only [decide_eq_true_eq]
      exact hdis r (by simp) a ha
    have hhead : (r.coin_id, r.date) ∉ rest.map (fun x => (x.coin_id, x.date)) :=
      (List.nodup_cons.1 (by simpa using hnd)).1
    have hdis' : ∀ r' ∈ rest, ∀ x ∈ tbl ++ [r],
        ¬(x.coin_id = r'.coin_id ∧ x.date = r'.date) := by
      intro r' hr' x hx hc
      rcases List.mem_append.1 hx with hx | hx
      · exact hdis r' (List.mem_cons_of_mem r hr') x hx hc
      · rcases List.mem_singleton.1 hx with rfl
        exact hhead (by
          have : (x.coin_id, x.date) = (r'.coin_id, r'.date) := by
            rw [hc.1, hc.2]
          rw [this]
          exact List.mem_map_of_mem _ hr')
    rw [List.foldl_cons, hfe,
      foldl_upsertCrypto_disjoint rest (tbl ++ [r]) (by simpa using hnd.of_cons) hdis']
    simp

lemma foldl_upsertFiat_disjoint :
    ∀ (rows : List FiatRow) (tbl : FiatTable),
      (rows.map (fun r => (r.code, r.date))).Nodup →
      (∀ r ∈ rows, ∀ x ∈ tbl, ¬(x.code = r.code ∧ x.date = r.date)) →
      rows.foldl upsertFiat tbl = tbl ++ rows
  | [], tbl, _, _ => by simp
  | r :: rest, tbl, hnd, hdis => by
    have hfe : upsertFiat tbl r = tbl ++ [r] := by
      unfold upsertFiat
      congr 1
      apply List.filter_eq_self.2
      intro a ha
      simp only [decide_eq_true_eq]
      exact hdis r (by simp) a ha
    have hhead : (r.code, r.date) ∉ rest.map (fun x => (x.code, x.date)) :=
      (List.nodup_cons.1 (by simpa using hnd)).1
    have hdis' : ∀ r' ∈ rest, ∀ x ∈ tbl ++ [r],
        ¬(x.code = r'.code ∧ x.date = r'.date) := by
      intro r' hr' x hx hc
      rcases List.mem_append.1 hx with hx | hx
      · exact hdis r' (List.mem_cons_of_mem r hr') x hx hc
      · rcases List.mem_singleton.1 hx with rfl
        exact hhead (by
          have : (x.code, x.date) = (r'.code, r'.date) := by
            rw [hc.1, hc.2]
          rw [this]
          exact List.mem_map_of_mem _ hr')
    rw [List.foldl_cons, hfe,
      foldl_upsertFiat_disjoint rest (tbl ++ [r]) (by simpa using hnd.of_cons) hdis']
    simp

/-! ## Claim theorems: cache store -/

/-- C4: cache upsert is idempotent and last-write-wins.  After writing values
`vs` (in order, possibly repeated or distinct) for the key `(cid, d)`, the
`crypto_prices` table holds exactly one row for that key, carrying the last
written value; and every `save_crypto_cache` call preserves the primary-key
invariant that no `(entity, date)` pair is duplicated. -/
theorem upsert_last_write_wins (tbl : CryptoTable) (cid : String) (d : Nat)
    (vs : List (Option ℚ)) (hvs : vs ≠ []) (hnd : CryptoNoDupKeys tbl) :
    cryptoRowsFor (vs.foldl (fun t v => save_crypto_cache t cid [(some d, v)]) tbl) cid d
      = [vs.getLast hvs]
    ∧ ∀ pts : List RawPt, CryptoNoDupKeys (save_crypto_cache tbl cid pts) :=
  ⟨foldl_save_singleton_rowsFor cid d vs hvs tbl,
   fun pts => save_crypto_cache_nodupKeys tbl cid pts hnd⟩

/-- Witness for C4: two writes for key `("btc", 0)`, values `2` then `3`,
leave exactly one row holding `3`. -/
theorem upsert_last_write_wins_witness :
    cryptoRowsFor ([some (2 : ℚ), some 3].foldl
        (fun t v => save_crypto_cache t "btc" [(some 0, v)]) []) "btc" 0 = [some (3 : ℚ)]
    ∧ ∀ pts : List RawPt, CryptoNoDupKeys (save_crypto_cache [] "btc" pts) :=
  upsert_last_write_wins [] "btc" 0 [some 2, some 3] (by decide)
    (by simp [CryptoNoDupKeys])

/-- C5: `load_crypto_cache`/`load_fiat_cache` return exactly the cached rows
of the requested entity whose date lies in `[s, e]` inclusive, sorted
ascending by date, and the empty sequence (never an error) when no row
matches. -/
theorem load_range_semantics (ctbl : CryptoTable) (ftbl : FiatTable)
    (cid code : String) (s e : Nat) :
    (∀ p : Nat × Option ℚ, p ∈ load_crypto_cache ctbl cid s e ↔
        ∃ r ∈ ctbl, r.coin_id = cid ∧ s ≤ r.date ∧ r.date ≤ e ∧ p = (r.date, r.price))
    ∧ (load_crypto_cache ctbl cid s e).Pairwise (fun a b => a.1 ≤ b.1)
    ∧ ((∀ r ∈ ctbl, ¬(r.coin_id = cid ∧ s ≤ r.date ∧ r.date ≤ e)) →
        load_crypto_cache ctbl cid s e = [])
    ∧ (∀ p : Nat × Option ℚ, p ∈ load_fiat_cache ftbl code s e ↔
        ∃ r ∈ ftbl, r.code = code ∧ s ≤ r.date ∧ r.date ≤ e ∧ p = (r.date, r.close))
    ∧ (load_fiat_cache ftbl code s e).Pairwise (fun a b => a.1 ≤ b.1)
    ∧ ((∀ r ∈ ftbl, ¬(r.code = code ∧ s ≤ r.date ∧ r.date ≤ e)) →
        load_fiat_cache ftbl code s e = []) :=
  ⟨fun _ => mem_load_crypto_cache, load_crypto_cache_sorted ctbl cid s e,
   fun h => load_crypto_cache_eq_nil h, fun _ => mem_load_fiat_cache,
   load_fiat_cache_sorted ftbl code s e, fun h => load_fiat_cache_eq_nil h⟩

/-- Witness for C5 at a concrete two-entity table and range `[0, 4]`. -/
theorem load_range_semantics_witness :
    (∀ p : Nat × Option ℚ,
        p ∈ load_crypto_cache [⟨"btc", 5, some 7⟩, ⟨"btc", 1, some 3⟩] "btc" 0 4 ↔
        ∃ r ∈ [CryptoRow.mk "btc" 5 (some 7), CryptoRow.mk "btc" 1 (some 3)],
          r.coin_id = "btc" ∧ 0 ≤ r.date ∧ r.date ≤ 4 ∧ p = (r.date, r.price))
    ∧ (load_crypto_cache [⟨"btc", 5, some 7⟩, ⟨"btc", 1, some 3⟩] "btc" 0 4).Pairwise
        (fun a b => a.1 ≤ b.1)
    ∧ ((∀ r ∈ [CryptoRow.mk "btc" 5 (some 7), CryptoRow.mk "btc" 1 (some 3)],
          ¬(r.coin_id = "btc" ∧ 0 ≤ r.date ∧ r.date ≤ 4)) →
        load_crypto_cache [⟨"btc", 5, some 7⟩, ⟨"btc", 1, some 3⟩] "btc" 0 4 = [])
    ∧ (∀ p : Nat × Option ℚ, p ∈ load_fiat_cache [⟨"EUR", 9, none⟩] "EUR" 0 4 ↔
        ∃ r ∈ [FiatRow.mk "EUR" 9 none],
          r.code = "EUR" ∧ 0 ≤ r.date ∧ r.date ≤ 4 ∧ p = (r.date, r.close))
    ∧ (load_fiat_cache [⟨"EUR", 9, none⟩] "EUR" 0 4).Pairwise (fun a b => a.1 ≤ b.1)
    ∧ ((∀ r ∈ [FiatRow.mk "EUR" 9 none],
          ¬(r.code = "EUR" ∧ 0 ≤ r.date ∧ r.date ≤ 4)) →
        load_fiat_cache [⟨"EUR", 9, none⟩] "EUR" 0 4 = []) :=
  load_range_semantics [⟨"btc", 5, some 7⟩, ⟨"btc", 1, some 3⟩] [⟨"EUR", 9, none⟩]
    "btc" "EUR" 0 4

lemma save_crypto_cache_empty_tbl (cid : String) (pts : List (Nat × Option ℚ))
    (hnd : (pts.map Prod.fst).Nodup) :
    save_crypto_cache [] cid (pts.map (fun p => (some p.1, p.2)))
      = pts.map (fun p => CryptoRow.mk cid p.1 p.2) := by
  unfold save_crypto_cache
  have hfm : (pts.map (fun p : Nat × Option ℚ => ((some p.1, p.2) : RawPt))).filterMap
      (fun p => p.1.map (fun d => CryptoRow.mk cid d p.2))
      = pts.map (fun p => CryptoRow.mk cid p.1 p.2) := by
    clear hnd
    induction pts with
    | nil => rfl
    | cons p ps ih =>
      simp only [List.map_cons, List.filterMap_cons, Option.map_some']
      rw [ih]
  rw [hfm]
  apply foldl_upsertCrypto_disjoint
  · rw [List.map_map]
    have : ((fun r : CryptoRow => (r.coin_id, r.date)) ∘ fun p : Nat × Option ℚ =>
        CryptoRow.mk cid p.1 p.2) = (fun d => (cid, d)) ∘ Prod.fst := rfl
    rw [this, ← List.map_map]
    exact hnd.map (fun a b h => (Prod.mk.injEq _ _ _ _ ▸ h : _ ∧ _).2)
  · intro r _ x hx
    simp at hx

lemma save_fiat_cache_empty_tbl (code : String) (pts : List (Nat × Option ℚ))
    (hnd : (pts.map Prod.fst).Nodup) :
    save_fiat_cache [] code (pts.map (fun p => (some p.1, p.2)))
      = pts.map (fun p => FiatRow.mk code p.1 p.2) := by
  unfold save_fiat_cache
  have hfm : (pts.map (fun p : Nat × Option ℚ => ((some p.1, p.2) : RawPt))).filterMap
      (fun p => p.1.map (fun d => FiatRow.mk code d p.2))
      = pts.map (fun p => FiatRow.mk code p.1 p.2) := by
    clear hnd
    induction pts with
    | nil => rfl
    | cons p ps ih =>
      simp only [List.map_cons, List.filterMap_cons, Option.map_some']
      rw [ih]
  rw [hfm]
  apply foldl_upsertFiat_disjoint
  · rw [List.map_map]
    have : ((fun r : FiatRow => (r.code, r.date)) ∘ fun p : Nat × Option ℚ =>
        FiatRow.mk code p.1 p.2) = (fun d => (code, d)) ∘ Prod.fst := rfl
    rw [this, ← List.map_map]
    exact hnd.map (fun a b h => (Prod.mk.injEq _ _ _ _ ▸ h : _ ∧ _).2)
  · intro r _ x hx
    simp at hx

lemma load_crypto_cache_perm_of_all_match (cid : String) (lo hi : Nat)
    (pts : List (Nat × Option ℚ))
    (hin : ∀ p ∈ pts, lo ≤ p.1 ∧ p.1 ≤ hi) :
    (load_crypto_cache (pts.map (fun p => CryptoRow.mk cid p.1 p.2)) cid lo hi).Perm pts := by
  unfold load_crypto_cache
  have hfe : (pts.map (fun p => CryptoRow.mk cid p.1 p.2)).filter
      (fun r => decide (r.coin_id = cid ∧ lo ≤ r.date ∧ r.date ≤ hi))
      = pts.map (fun p => CryptoRow.mk cid p.1 p.2) := by
    apply List.filter_eq_self.2
    intro a ha
    simp only [List.mem_map] at ha
    obtain ⟨p, hp, rfl⟩ := ha
    simpa using hin p hp
  rw [hfe]
  have hperm := (List.perm_insertionSort crDateLe
    (pts.map (fun p => CryptoRow.mk cid p.1 p.2))).map
    (fun r : CryptoRow => (r.date, r.price))
  refine hperm.trans ?_
  rw [List.map_map]
  have : ((fun r : CryptoRow => (r.date, r.price)) ∘ fun p : Nat × Option ℚ =>
      CryptoRow.mk cid p.1 p.2) = id := by
    funext p
    rfl
  rw [this, List.map_id]

lemma load_fiat_cache_perm_of_all_match (code : String) (lo hi : Nat)
    (pts : List (Nat × Option ℚ))
    (hin : ∀ p ∈ pts, lo ≤ p.1 ∧ p.1 ≤ hi) :
    (load_fiat_cache (pts.map (fun p => FiatRow.mk code p.1 p.2)) code lo hi).Perm pts := by
  unfold load_fiat_cache
  have hfe : (pts.map (fun p => FiatRow.mk code p.1 p.2)).filter
      (fun r => decide (r.code = code ∧ lo ≤ r.date ∧ r.date ≤ hi))
      = pts.map (fun p => FiatRow.mk code p.1 p.2) := by
    apply List.filter_eq_self.2
    intro a ha
    simp only [List.mem_map] at ha
    obtain ⟨p, hp, rfl⟩ := ha
    simpa using hin p hp
  rw [hfe]
  have hperm := (List.perm_insertionSort fiDateLe
    (pts.map (fun p => FiatRow.mk code p.1 p.2))).map
    (fun r : FiatRow => (r.date, r.close))
  refine hperm.trans ?_
  rw [List.map_map]
  have : ((fun r : FiatRow => (r.date, r.close)) ∘ fun p : Nat × Option ℚ =>
      FiatRow.mk code p.1 p.2) = id := by
    funext p
    rfl
  rw [this, List.map_id]

/-- C10: round-trip of the cache.  Saving a series of `(date, value)` points
with pairwise-distinct dates into an empty table and loading back any range
covering all its dates returns exactly those points, sorted ascending by
date — for the crypto table and the fiat table alike. -/
theorem cache_round_trip (cid code : String) (lo hi : Nat)
    (pts qts : List (Nat × Option ℚ))
    (hnd : (pts.map Prod.fst).Nodup) (hin : ∀ p ∈ pts, lo ≤ p.1 ∧ p.1 ≤ hi)
    (hnd' : (qts.map Prod.fst).Nodup) (hin' : ∀ p ∈ qts, lo ≤ p.1 ∧ p.1 ≤ hi) :
    (load_crypto_cache
        (save_crypto_cache [] cid (pts.map (fun p => (some p.1, p.2)))) cid lo hi).Perm pts
    ∧ (load_crypto_cache
        (save_crypto_cache [] cid (pts.map (fun p => (some p.1, p.2)))) cid lo hi).Pairwise
        (fun a b => a.1 ≤ b.1)
    ∧ (load_fiat_cache
        (save_fiat_cache [] code (qts.map (fun p => (some p.1, p.2)))) code lo hi).Perm qts
    ∧ (load_fiat_cache
        (save_fiat_cache [] code (qts.map (fun p => (some p.1, p.2)))) code lo hi).Pairwise
        (fun a b => a.1 ≤ b.1) := by
  rw [save_crypto_cache_empty_tbl cid pts hnd, save_fiat_cache_empty_tbl code qts hnd']
  exact ⟨load_crypto_cache_perm_of_all_match cid lo hi pts hin,
    load_crypto_cache_sorted _ cid lo hi,
    load_fiat_cache_perm_of_all_match code lo hi qts hin',
    load_fiat_cache_sorted _ code lo hi⟩

/-- Witness for C10: the out-of-order series `[(3, 5), (1, none)]` round-trips
through each table over the range `[0, 9]`. -/
theorem cache_round_trip_witness :
    (load_crypto_cache
        (save_crypto_cache [] "btc"
          ([((3 : Nat), some (5 : ℚ)), (1, none)].map (fun p => (some p.1, p.2))))
        "btc" 0 9).Perm [((3 : Nat), some (5 : ℚ)), (1, none)]
    ∧ (load_crypto_cache
        (save_crypto_cache [] "btc"
          ([((3 : Nat), some (5 : ℚ)), (1, none)].map (fun p => (some p.1, p.2))))
        "btc" 0 9).Pairwise (fun a b => a.1 ≤ b.1)
    ∧ (load_fiat_cache
        (save_fiat_cache [] "EUR"
          ([((2 : Nat), some (7 : ℚ))].map (fun p => (some p.1, p.2)))) "EUR" 0 9).Perm
        [((2 : Nat), some (7 : ℚ))]
    ∧ (load_fiat_cache
        (save_fiat_cache [] "EUR"
          ([((2 : Nat), some (7 : ℚ))].map (fun p => (some p.1, p.2)))) "EUR" 0 9).Pairwise
        (fun a b => a.1 ≤ b.1) :=
  cache_round_trip "btc" "EUR" 0 9 [(3, some 5), (1, none)] [(2, some 7)]
    (by decide) (by decide) (by decide) (by decide)

/-! ## Loop characterization lemmas -/

/-- The `log` lines emitted for one crypto entity. -/
def cryptoEntityLogs (o : Oracle) (tc idx : Nat) (c : Coin) : List String :=
  let f := cryptoFetch o c.id c.name
  let saveLog :=
    match o.cryptoSaveFail c.id with
    | some err => "Failed saving cache for " ++ c.name ++ ": " ++ err
    | none => "Saved cache for " ++ c.name
  ("Loading data for " ++ c.name ++ " (" ++ c.id ++ ") [" ++
    toString (idx + 1) ++ "/" ++ toString tc ++ "]") :: (f.2.2 ++ [saveLog])

/-- The `log` lines of the whole crypto loop, uninterrupted. -/
def cryptoLogsList (o : Oracle) (tc : Nat) : Nat → List Coin → List String
  | _, [] => []
  | idx, c :: rest => cryptoEntityLogs o tc idx c ++ cryptoLogsList o tc (idx + 1) rest

/-- The `log` lines emitted for one fiat entity. -/
def fiatEntityLogs (o : Oracle) (base : String) (s e tf idx : Nat)
    (cn : String × String) : List String :=
  let f := processFiatFetch o base cn.1 cn.2 s e
  let saveLog :=
    match o.fiatSaveFail cn.1 with
    | some err => "Failed saving cache for fiat " ++ cn.2 ++ ": " ++ err
    | none => "Saved cache for fiat " ++ cn.2
  ("Loading fiat data for " ++ cn.2 ++ " (" ++ cn.1 ++ ") [" ++
    toString (idx + 1) ++ "/" ++ toString tf ++ "]") :: (f.logs ++ [saveLog])

/-- The `log` lines of the whole fiat loop, uninterrupted. -/
def fiatLogsList (o : Oracle) (base : String) (s e tf : Nat) :
    Nat → List (String × String) → List String
  | _, [] => []
  | idx, cn :: rest =>
    fiatEntityLogs o base s e tf idx cn ++ fiatLogsList o base s e tf (idx + 1) rest

/-- The `progress` events of `n` crypto-loop iterations starting at `idx`. -/
def cryptoProgList (tc : Nat) : Nat → Nat → List (Nat × Nat)
  | _, 0 => []
  | idx, n + 1 => (idx + 1, tc) :: cryptoProgList tc (idx + 1) n

/-- The `progress` events of `n` fiat-loop iterations starting at `idx`. -/
def fiatProgList (tc ts : Nat) : Nat → Nat → List (Nat × Nat)
  | _, 0 => []
  | idx, n + 1 => (tc + idx + 1, ts) :: fiatProgList tc ts (idx + 1) n

lemma cryptoProgList_eq_range (tc : Nat) :
    ∀ (n idx : Nat), cryptoProgList tc idx n
      = (List.range n).map (fun i => (idx + i + 1, tc))
  | 0, _ => rfl
  | n + 1, idx => by
    rw [cryptoProgList, cryptoProgList_eq_range tc n (idx + 1),
      List.range_succ_eq_map]
    simp only [List.map_cons, List.map_map]
    refine congrArg₂ _ rfl ?_
    apply List.map_congr_left
    intro i _
    simp only [Function.comp_apply]
    refine congrArg₂ _ ?_ rfl
    omega

lemma fiatProgList_eq_range (tc ts : Nat) :
    ∀ (n idx : Nat), fiatProgList tc ts idx n
      = (List.range n).map (fun i => (tc + idx + i + 1, ts))
  | 0, _ => rfl
  | n + 1, idx => by
    rw [fiatProgList, fiatProgList_eq_range tc ts n (idx + 1),
      List.range_succ_eq_map]
    simp only [List.map_cons, List.map_map]
    refine congrArg₂ _ ?_ ?_
    · refine congrArg₂ _ ?_ rfl
      omega
    · apply List.map_congr_left
      intro i _
      simp only [Function.comp_apply]
      refine congrArg₂ _ ?_ rfl
      omega

lemma cryptoStep_fields (o : Oracle) (tc idx : Nat) (c : Coin) (st : RunSt) :
    (cryptoStep o tc idx c st).cryptos = st.cryptos ++ [cryptoSummaryOf o c]
    ∧ (cryptoStep o tc idx c st).fiats = st.fiats
    ∧ (cryptoStep o tc idx c st).done = st.done + 1
    ∧ (cryptoStep o tc idx c st).progress = st.progress ++ [(idx + 1, tc)]
    ∧ (cryptoStep o tc idx c st).logs = st.logs ++ cryptoEntityLogs o tc idx c := by
  unfold cryptoStep cryptoEntityLogs
  cases o.cryptoSaveFail c.id <;> simp

lemma fiatStep_fields (o : Oracle) (base : String) (s e tc tf ts idx : Nat)
    (cn : String × String) (st : RunSt) :
    (fiatStep o base s e tc tf ts idx cn st).cryptos = st.cryptos
    ∧ (fiatStep o base s e tc tf ts idx cn st).fiats
        = st.fiats ++ [fiatSummaryOf o base s e cn]
    ∧ (fiatStep o base s e tc tf ts idx cn st).done = st.done + 1
    ∧ (fiatStep o base s e tc tf ts idx cn st).progress
        = st.progress ++ [(tc + idx + 1, ts)]
    ∧ (fiatStep o base s e tc tf ts idx cn st).logs
        = st.logs ++ fiatEntityLogs o base s e tf idx cn := by
  unfold fiatStep fiatEntityLogs
  cases o.fiatSaveFail cn.1 <;> simp

lemma cryptoPhase_noStop (o : Oracle) (tc : Nat) (stopped : Nat → Bool)
    (hs : ∀ i, stopped i = false) :
    ∀ (coins : List Coin) (idx : Nat) (st : RunSt),
      (cryptoPhase o tc stopped coins idx st).cryptos
          = st.cryptos ++ coins.map (cryptoSummaryOf o)
      ∧ (cryptoPhase o tc stopped coins idx st).fiats = st.fiats
      ∧ (cryptoPhase o tc stopped coins idx st).done = st.done + coins.length
      ∧ (cryptoPhase o tc stopped coins idx st).progress
          = st.progress ++ cryptoProgList tc idx coins.length
      ∧ (cryptoPhase o tc stopped coins idx st).logs
          = st.logs ++ cryptoLogsList o tc idx coins
  | [], idx, st => by simp [cryptoPhase, cryptoLogsList, cryptoProgList]
  | c :: rest, idx, st => by
    obtain ⟨i1, i2, i3, i4, i5⟩ :=
      cryptoPhase_noStop o tc stopped hs rest (idx + 1) (cryptoStep o tc idx c st)
    obtain ⟨f1, f2, f3, f4, f5⟩ := cryptoStep_fields o tc idx c st
    rw [cryptoPhase, hs st.done]
    simp only [Bool.false_eq_true, if_false]
    refine ⟨?_, ?_, ?_, ?_, ?_⟩
    · rw [i1, f1, List.map_cons]
      simp [List.append_assoc]
    · rw [i2, f2]
    · rw [i3, f3, List.length_cons]
      omega
    · rw [i4, f4, List.length_cons, cryptoProgList]
      simp [List.append_assoc]
    · rw [i5, f5, cryptoLogsList]
      simp [List.append_assoc]

lemma fiatPhase_noStop (o : Oracle) (base : String) (s e tc tf ts : Nat)
    (stopped : Nat → Bool) (hs : ∀ i, stopped i = false) :
    ∀ (fl : List (String × String)) (idx : Nat) (st : RunSt),
      (fiatPhase o base s e tc tf ts stopped fl idx st).cryptos = st.cryptos
      ∧ (fiatPhase o base s e tc tf ts stopped fl idx st).fiats
          = st.fiats ++ fl.map (fiatSummaryOf o base s e)
      ∧ (fiatPhase o base s e tc tf ts stopped fl idx st).done = st.done + fl.length
      ∧ (fiatPhase o base s e tc tf ts stopped fl idx st).progress
          = st.progress ++ fiatProgList tc ts idx fl.length
      ∧ (fiatPhase o base s e tc tf ts stopped fl idx st).logs
          = st.logs ++ fiatLogsList o base s e tf idx fl
  | [], idx, st => by simp [fiatPhase, fiatLogsList, fiatProgList]
  | cn :: rest, idx, st => by
    obtain ⟨i1, i2, i3, i4, i5⟩ :=
      fiatPhase_noStop o base s e tc tf ts stopped hs rest (idx + 1)
        (fiatStep o base s e tc tf ts idx cn st)
    obtain ⟨f1, f2, f3, f4, f5⟩ := fiatStep_fields o base s e tc tf ts idx cn st
    rw [fiatPhase, hs st.done]
    simp only [Bool.false_eq_true, if_false]
    refine ⟨?_, ?_, ?_, ?_, ?_⟩
    · rw [i1, f1]
    · rw [i2, f2, List.map_cons]
      simp [List.append_assoc]
    · rw [i3, f3, List.length_cons]
      omega
    · rw [i4, f4, List.length_cons, fiatProgList]
      simp [List.append_assoc]
    · rw [i5, f5, fiatLogsList]
      simp [List.append_assoc]

/-! ## Claim theorems: acquisition pipeline -/

/-- C1: a run with a valid range that completes without cancellation yields
exactly the 20 crypto summaries, in ranking order, and the 10 fiat summaries,
in the order of the hardcoded fiat list. -/
theorem run_produces_full_universe (o : Oracle) (s e : Nat) (base : String)
    (stopped : Nat → Bool) (top : List Coin)
    (hse : s ≤ e) (hrank : o.rank = .ok top) (hlen : top.length = 20)
    (hstop : ∀ i, stopped i = false) (ctbl : CryptoTable) (ftbl : FiatTable) :
    ∃ r : AcquisitionResult,
      (runWorker o s e base stopped ctbl ftbl).outcome = .ok r
      ∧ r.cryptos.length = 20
      ∧ r.cryptos.map (fun c => (c.id, c.name)) = top.map (fun c => (c.id, c.name))
      ∧ r.fiats.length = 10
      ∧ r.fiats.map (fun f => (f.code, f.name)) = fiatsList := by
  obtain ⟨c1, c2, c3, c4, c5⟩ := cryptoPhase_noStop o top.length stopped hstop top 0
    ⟨[], [], [], [], ctbl, ftbl, 1, 0⟩
  obtain ⟨g1, g2, g3, g4, g5⟩ := fiatPhase_noStop o base s e top.length
    fiatsList.length (top.length + fiatsList.length) stopped hstop fiatsList 0
    (cryptoPhase o top.length stopped top 0 ⟨[], [], [], [], ctbl, ftbl, 1, 0⟩)
  simp only [runWorker, hrank]
  refine ⟨_, rfl, ?_, ?_, ?_, ?_⟩
  · rw [g1, c1]
    simp [hlen]
  · rw [g1, c1]
    simp only [List.nil_append, List.map_map]
    rfl
  · rw [g2, c2]
    simp [fiatsList]
  · rw [g2, c2]
    simp only [List.nil_append, List.map_map]
    rfl

/-- A concrete 20-coin ranking with trivially succeeding fetches. -/
def coinsW : List Coin :=
  [⟨"c01", "C01"⟩, ⟨"c02", "C02"⟩, ⟨"c03", "C03"⟩, ⟨"c04", "C04"⟩,
   ⟨"c05", "C05"⟩, ⟨"c06", "C06"⟩, ⟨"c07", "C07"⟩, ⟨"c08", "C08"⟩,
   ⟨"c09", "C09"⟩, ⟨"c10", "C10"⟩, ⟨"c11", "C11"⟩, ⟨"c12", "C12"⟩,
   ⟨"c13", "C13"⟩, ⟨"c14", "C14"⟩, ⟨"c15", "C15"⟩, ⟨"c16", "C16"⟩,
   ⟨"c17", "C17"⟩, ⟨"c18", "C18"⟩, ⟨"c19", "C19"⟩, ⟨"c20", "C20"⟩]

/-- An oracle whose ranking is `coinsW` and whose provider calls all succeed
with empty data. -/
def oW : Oracle where
  rank := .ok coinsW
  chart := fun _ => .ok []
  download := fun _ => .ok []
  cryptoSaveFail := fun _ => none
  fiatSaveFail := fun _ => none

/-- Witness for C1 at the concrete oracle `oW`. -/
theorem run_produces_full_universe_witness :
    ∃ r : AcquisitionResult,
      (runWorker oW 0 1 "USD" (fun _ => false) [] []).outcome = .ok r
      ∧ r.cryptos.length = 20
      ∧ r.cryptos.map (fun c => (c.id, c.name)) = coinsW.map (fun c => (c.id, c.name))
      ∧ r.fiats.length = 10
      ∧ r.fiats.map (fun f => (f.code, f.name)) = fiatsList :=
  run_produces_full_universe oW 0 1 "USD" (fun _ => false) coinsW (by decide) rfl
    (by decide) (fun _ => rfl) [] []

/-- C9 counterexample: in a full run over a 20-coin ranking, the first
crypto-phase progress event is `(1, 20)` — its total is `total_coins = 20`,
not `total_steps = 20 + 10` as claimed. -/
theorem progress_totals_counterexample :
    (runWorker oW 0 1 "USD" (fun _ => false) [] []).progress.head? = some (1, 20)
    ∧ ((1 : Nat), (20 : Nat)) ≠ ((1 : Nat), (30 : Nat)) := by
  constructor
  · rfl
  · decide

/-- C9 amended: after each crypto entity the pipeline emits
`(index + 1, total_coins)` with `total_coins = 20` (the crypto-phase total
only, not `total_steps`); after each fiat entity it emits
`(total_coins + index + 1, total_steps)` with `total_steps = 20 + 10`,
continuing the running counter from the crypto phase. -/
theorem progress_totals (o : Oracle) (s e : Nat) (base : String)
    (stopped : Nat → Bool) (top : List Coin)
    (hrank : o.rank = .ok top) (hlen : top.length = 20)
    (hstop : ∀ i, stopped i = false) (ctbl : CryptoTable) (ftbl : FiatTable) :
    (runWorker o s e base stopped ctbl ftbl).progress
      = (List.range 20).map (fun i => (i + 1, 20))
        ++ (List.range 10).map (fun j => (20 + j + 1, 20 + 10)) := by
  obtain ⟨c1, c2, c3, c4, c5⟩ := cryptoPhase_noStop o top.length stopped hstop top 0
    ⟨[], [], [], [], ctbl, ftbl, 1, 0⟩
  obtain ⟨g1, g2, g3, g4, g5⟩ := fiatPhase_noStop o base s e top.length
    fiatsList.length (top.length + fiatsList.length) stopped hstop fiatsList 0
    (cryptoPhase o top.length stopped top 0 ⟨[], [], [], [], ctbl, ftbl, 1, 0⟩)
  simp only [runWorker, hrank]
  rw [g4, c4, cryptoProgList_eq_range, fiatProgList_eq_range, hlen]
  simp only [List.nil_append, List.append_assoc]
  refine congrArg₂ _ ?_ ?_
  · apply List.map_congr_left
    intro i _
    refine congrArg₂ _ ?_ rfl
    omega
  · have hfl : fiatsList.length = 10 := rfl
    rw [hfl]

/-- Witness for the amended C9 at the concrete oracle `oW`. -/
theorem progress_totals_witness :
    (runWorker oW 0 1 "USD" (fun _ => false) [] []).progress
      = (List.range 20).map (fun i => (i + 1, 20))
        ++ (List.range 10).map (fun j => (20 + j + 1, 20 + 10)) :=
  progress_totals oW 0 1 "USD" (fun _ => false) coinsW rfl (by decide)
    (fun _ => rfl) [] []

/-! ## Average semantics -/

lemma cryptoSummaryOf_avg (o : Oracle) (c : Coin) :
    (cryptoSummaryOf o c).avg_price
      = meanQ ((cryptoSummaryOf o c).history.map Prod.snd) := by
  unfold cryptoSummaryOf cryptoFetch
  cases o.chart c.id with
  | error e => simp [meanQ]
  | ok prices =>
    by_cases hp : prices = [] <;> simp [hp, meanQ]

lemma meanQ_replicate_one (n : Nat) (hn : n ≠ 0) :
    meanQ (List.replicate n (1 : ℚ)) = some 1 := by
  unfold meanQ
  rw [if_neg (by simp [hn])]
  rw [List.sum_replicate, List.length_replicate, nsmul_eq_mul, mul_one]
  exact congrArg some (div_self (by exact_mod_cast hn))

lemma filterMap_id_replicate_some (a : ℚ) :
    ∀ n, (List.replicate n (some a)).filterMap id = List.replicate n a
  | 0 => rfl
  | n + 1 => by simp [List.replicate_succ, filterMap_id_replicate_some a n]

lemma processFiatFetch_avg (o : Oracle) (base code nm : String) (s e : Nat)
    (hse : s ≤ e) :
    (processFiatFetch o base code nm s e).avg_rate
      = meanOpt ((processFiatFetch o base code nm s e).history.map Prod.snd) := by
  unfold processFiatFetch
  split
  · show some 1 = meanOpt (((dateRange s e).map (fun d => (d, some (1 : ℚ)))).map Prod.snd)
    have h1 : ((dateRange s e).map (fun d => ((d : Nat), some (1 : ℚ)))).map Prod.snd
        = List.replicate (e + 1 - s) (some (1 : ℚ)) := by
      have h2 := List.eq_replicate_of_mem
        (a := some (1 : ℚ))
        (l := ((dateRange s e).map (fun d => ((d : Nat), some (1 : ℚ)))).map Prod.snd)
        (by simp)
      rw [h2]
      congr 1
      simp [dateRange]
    rw [h1]
    unfold meanOpt
    rw [filterMap_id_replicate_some]
    exact (meanQ_replicate_one _ (by omega)).symm
  · split
    · simp [meanOpt, meanQ]
    · split
      · split
        · simp [meanOpt, meanQ]
        · split
          · simp [meanOpt, meanQ]
          · rfl
      · rfl

lemma fiatSummaryOf_avg (o : Oracle) (base : String) (s e : Nat) (hse : s ≤ e)
    (cn : String × String) :
    (fiatSummaryOf o base s e cn).avg_rate
      = meanOpt ((fiatSummaryOf o base s e cn).history.map Prod.snd) :=
  processFiatFetch_avg o base cn.1 cn.2 s e hse

lemma cryptoPhase_fiats_any (o : Oracle) (tc : Nat) (stopped : Nat → Bool) :
    ∀ (coins : List Coin) (idx : Nat) (st : RunSt),
      (cryptoPhase o tc stopped coins idx st).fiats = st.fiats
  | [], _, _ => rfl
  | c :: rest, idx, st => by
    rw [cryptoPhase]
    by_cases hs : stopped st.done = true
    · rw [if_pos hs]
    · rw [if_neg hs, cryptoPhase_fiats_any o tc stopped rest (idx + 1) _]
      exact (cryptoStep_fields o tc idx c st).2.1

lemma fiatPhase_cryptos_any (o : Oracle) (base : String) (s e tc tf ts : Nat)
    (stopped : Nat → Bool) :
    ∀ (fl : List (String × String)) (idx : Nat) (st : RunSt),
      (fiatPhase o base s e tc tf ts stopped fl idx st).cryptos = st.cryptos
  | [], _, _ => rfl
  | cn :: rest, idx, st => by
    rw [fiatPhase]
    by_cases hs : stopped st.done = true
    · rw [if_pos hs]
    · rw [if_neg hs, fiatPhase_cryptos_any o base s e tc tf ts stopped rest (idx + 1) _]
      exact (fiatStep_fields o base s e tc tf ts idx cn st).1

lemma cryptoPhase_cryptos_inv (o : Oracle) (tc : Nat) (stopped : Nat → Bool)
    (P : CryptoSummary → Prop) (hP : ∀ c, P (cryptoSummaryOf o c)) :
    ∀ (coins : List Coin) (idx : Nat) (st : RunSt),
      (∀ x ∈ st.cryptos, P x) →
      ∀ x ∈ (cryptoPhase o tc stopped coins idx st).cryptos, P x
  | [], _, _ => fun h => h
  | c :: rest, idx, st => fun h => by
    rw [cryptoPhase]
    by_cases hs : stopped st.done = true
    · rw [if_pos hs]
      exact h
    · rw [if_neg hs]
      apply cryptoPhase_cryptos_inv o tc stopped P hP rest (idx + 1) _
      intro x hx
      rw [(cryptoStep_fields o tc idx c st).1] at hx
      rcases List.mem_append.1 hx with hx | hx
      · exact h x hx
      · rcases List.mem_singleton.1 hx with rfl
        exact hP c

lemma fiatPhase_fiats_inv (o : Oracle) (base : String) (s e tc tf ts : Nat)
    (stopped : Nat → Bool) (P : FiatSummary → Prop)
    (hP : ∀ cn, P (fiatSummaryOf o base s e cn)) :
    ∀ (fl : List (String × String)) (idx : Nat) (st : RunSt),
      (∀ x ∈ st.fiats, P x) →
      ∀ x ∈ (fiatPhase o base s e tc tf ts stopped fl idx st).fiats, P x
  | [], _, _ => fun h => h
  | cn :: rest, idx, st => fun h => by
    rw [fiatPhase]
    by_cases hs : stopped st.done = true
    · rw [if_pos hs]
      exact h
    · rw [if_neg hs]
      apply fiatPhase_fiats_inv o base s e tc tf ts stopped P hP rest (idx + 1) _
      intro x hx
      rw [(fiatStep_fields o base s e tc tf ts idx cn st).2.1] at hx
      rcases List.mem_append.1 hx with hx | hx
      · exact h x hx
      · rcases List.mem_singleton.1 hx with rfl
        exact hP cn

/-- C6: in every asset summary of a completed run (with a valid range), the
average is the arithmetic mean of the non-missing values of its history, and
is `none` when no numeric value exists; missing values are never treated as
zero: `[10, null, 20]` averages to `15` and `[null, null]` to `null`. -/
theorem averages_are_mean_of_nonmissing (o : Oracle) (s e : Nat) (base : String)
    (stopped : Nat → Bool) (ctbl : CryptoTable) (ftbl : FiatTable)
    (hse : s ≤ e) (r : AcquisitionResult)
    (hr : (runWorker o s e base stopped ctbl ftbl).outcome = .ok r) :
    (∀ c ∈ r.cryptos, c.avg_price = meanQ (c.history.map Prod.snd))
    ∧ (∀ f ∈ r.fiats, f.avg_rate = meanOpt (f.history.map Prod.snd))
    ∧ meanOpt [some 10, none, some 20] = some 15
    ∧ meanOpt [none, none] = none := by
  cases hrank : o.rank with
  | error err =>
    simp [runWorker, hrank] at hr
  | ok top =>
    simp only [runWorker, hrank] at hr
    have hr' := Except.ok.inj hr
    refine ⟨?_, ?_,
      by simp [meanOpt, meanQ, List.filterMap_cons]; norm_num,
      by simp [meanOpt, meanQ, List.filterMap_cons]⟩
    · intro c hc
      rw [← hr'] at hc
      simp only at hc
      rw [fiatPhase_cryptos_any] at hc
      exact cryptoPhase_cryptos_inv o top.length stopped
        (fun x => x.avg_price = meanQ (x.history.map Prod.snd))
        (cryptoSummaryOf_avg o) top 0 _ (by simp) c hc
    · intro f hf
      rw [← hr'] at hf
      simp only at hf
      refine fiatPhase_fiats_inv o base s e top.length fiatsList.length
        (top.length + fiatsList.length) stopped
        (fun x => x.avg_rate = meanOpt (x.history.map Prod.snd))
        (fiatSummaryOf_avg o base s e hse) fiatsList 0 _ ?_ f hf
      rw [cryptoPhase_fiats_any]
      simp

/-- A computed handle on the result of the concrete run over `oW`. -/
def rW : AcquisitionResult :=
  match (runWorker oW 0 1 "USD" (fun _ => false) [] []).outcome with
  | .ok r => r
  | .error _ => ⟨[], []⟩

/-- Witness for C6 at the concrete run over `oW`. -/
theorem averages_are_mean_of_nonmissing_witness :
    (∀ c ∈ rW.cryptos, c.avg_price = meanQ (c.history.map Prod.snd))
    ∧ (∀ f ∈ rW.fiats, f.avg_rate = meanOpt (f.history.map Prod.snd))
    ∧ meanOpt [some 10, none, some 20] = some 15
    ∧ meanOpt [none, none] = none :=
  averages_are_mean_of_nonmissing oW 0 1 "USD" (fun _ => false) [] []
    (by decide) rW rfl

/-- C7: when the requested fiat code equals the base currency, the fetch
returns a constant series of value 1.0 for every day of `[s, e]` inclusive
and the hardcoded average 1.0, and performs zero `yf.download` network
calls. -/
theorem base_currency_fiat_constant (o : Oracle) (base nm : String) (s e : Nat)
    (hse : s ≤ e) :
    (processFiatFetch o base base nm s e).calls = 0
    ∧ (processFiatFetch o base base nm s e).avg_rate = some 1
    ∧ (processFiatFetch o base base nm s e).history
        = (dateRange s e).map (fun d => (d, some (1 : ℚ)))
    ∧ ∀ d : Nat, s ≤ d → d ≤ e →
        (d, some (1 : ℚ)) ∈ (processFiatFetch o base base nm s e).history := by
  have hb : processFiatFetch o base base nm s e
      = { avg_rate := some 1
          history := (dateRange s e).map (fun d => (d, some (1 : ℚ)))
          logs := []
          calls := 0 } := by
    unfold processFiatFetch
    rw [if_pos rfl]
  rw [hb]
  refine ⟨rfl, rfl, rfl, ?_⟩
  intro d hd1 hd2
  simp only [List.mem_map]
  refine ⟨d, ?_, rfl⟩
  simp only [dateRange, List.mem_map, List.mem_range]
  exact ⟨d - s, by omega, by omega⟩

/-- Witness for C7: `USD` against base `USD` over days 3 to 5. -/
theorem base_currency_fiat_constant_witness :
    (processFiatFetch oW "USD" "USD" "Dollar" 3 5).calls = 0
    ∧ (processFiatFetch oW "USD" "USD" "Dollar" 3 5).avg_rate = some 1
    ∧ (processFiatFetch oW "USD" "USD" "Dollar" 3 5).history
        = (dateRange 3 5).map (fun d => (d, some (1 : ℚ)))
    ∧ ∀ d : Nat, 3 ≤ d → d ≤ 5 →
        (d, some (1 : ℚ)) ∈ (processFiatFetch oW "USD" "USD" "Dollar" 3 5).history :=
  base_currency_fiat_constant oW "USD" "Dollar" 3 5 (by decide)

/-- C8: for a fiat code distinct from the base currency, when the direct
pair returns no data and the inverted pair returns a series, the fetch
yields the element-wise reciprocal of the inverted series (with its
skip-missing mean); when both are empty it yields an empty series and a
null average — never an error. -/
theorem inverse_pair_fallback (o : Oracle) (base code nm : String) (s e : Nat)
    (hne : code ≠ base)
    (hdir : o.download (code ++ base ++ "=X") = .ok [])
    (inv : List (Nat × Option ℚ))
    (hinv : o.download (base ++ code ++ "=X") = .ok inv) :
    (inv ≠ [] →
      (processFiatFetch o base code nm s e).history
        = inv.map (fun p => (p.1, p.2.map (fun x => 1 / x)))
      ∧ (processFiatFetch o base code nm s e).avg_rate
        = meanOpt ((inv.map (fun p => (p.1, p.2.map (fun x => 1 / x)))).map Prod.snd))
    ∧ (inv = [] →
      (processFiatFetch o base code nm s e).history = []
      ∧ (processFiatFetch o base code nm s e).avg_rate = none) := by
  constructor
  · intro hne0
    have hp : processFiatFetch o base code nm s e
        = { avg_rate :=
              meanOpt ((inv.map (fun p => (p.1, p.2.map (fun x => 1 / x)))).map Prod.snd)
            history := inv.map (fun p => (p.1, p.2.map (fun x => 1 / x)))
            logs := []
            calls := 2 } := by
      unfold processFiatFetch
      rw [if_neg hne, hdir, hinv]
      simp [if_neg hne0]
    rw [hp]
    exact ⟨rfl, rfl⟩
  · intro he
    subst he
    have hp : processFiatFetch o base code nm s e
        = { avg_rate := none, history := [], logs := [], calls := 2 } := by
      unfold processFiatFetch
      rw [if_neg hne, hdir, hinv]
      simp
    rw [hp]
    exact ⟨rfl, rfl⟩

/-- An oracle for C8's witness: the direct pair `EURUSD=X` has no data, the
inverted pair `USDEUR=X` returns `[2, 4]`, every other ticker is empty. -/
def o8 : Oracle where
  rank := .ok []
  chart := fun _ => .ok []
  download := fun t => if t = "USDEUR=X" then .ok [(0, some 2), (1, some 4)] else .ok []
  cryptoSaveFail := fun _ => none
  fiatSaveFail := fun _ => none

/-- Witness for C8: the inverted series `[2, 4]` yields `[1/2, 1/4]`, and a
code with no data on either pair yields an empty history and a null
average. -/
theorem inverse_pair_fallback_witness :
    (processFiatFetch o8 "USD" "EUR" "Euro" 0 1).history
      = [((0 : Nat), some ((1 : ℚ) / 2)), (1, some ((1 : ℚ) / 4))]
    ∧ (processFiatFetch o8 "USD" "JPY" "Japanese Yen" 0 1).history = []
    ∧ (processFiatFetch o8 "USD" "JPY" "Japanese Yen" 0 1).avg_rate = none := by
  have h1 := inverse_pair_fallback o8 "USD" "EUR" "Euro" 0 1 (by decide) rfl
    [(0, some 2), (1, some 4)] rfl
  have h2 := inverse_pair_fallback o8 "USD" "JPY" "Japanese Yen" 0 1 (by decide) rfl
    [] rfl
  refine ⟨?_, (h2.2 rfl).1, (h2.2 rfl).2⟩
  rw [(h1.1 (by decide)).1]
  rfl

/-! ## Cancellation -/

lemma cryptoPhase_stopAt (o : Oracle) (tc k : Nat) :
    ∀ (coins : List Coin) (idx : Nat) (st : RunSt),
      (cryptoPhase o tc (fun i => decide (k ≤ i)) coins idx st).cryptos
        = st.cryptos ++ (coins.take (k - st.done)).map (cryptoSummaryOf o)
      ∧ (cryptoPhase o tc (fun i => decide (k ≤ i)) coins idx st).fiats = st.fiats
      ∧ (cryptoPhase o tc (fun i => decide (k ≤ i)) coins idx st).done
          = st.done + min (k - st.done) coins.length
  | [], idx, st => by simp [cryptoPhase]
  | c :: rest, idx, st => by
    rw [cryptoPhase]
    by_cases hk : k ≤ st.done
    · rw [if_pos (by simpa using hk)]
      have h0 : k - st.done = 0 := by omega
      simp [h0]
    · rw [if_neg (by simpa using hk)]
      obtain ⟨i1, i2, i3⟩ := cryptoPhase_stopAt o tc k rest (idx + 1) (cryptoStep o tc idx c st)
      obtain ⟨f1, f2, f3, f4, f5⟩ := cryptoStep_fields o tc idx c st
      rw [f3] at i1 i3
      refine ⟨?_, ?_, ?_⟩
      · rw [i1, f1]
        have hs : k - st.done = (k - (st.done + 1)) + 1 := by omega
        rw [hs, List.take_succ_cons, List.map_cons]
        simp [List.append_assoc]
      · rw [i2, f2]
      · rw [i3, List.length_cons]
        rcases Nat.le_total (k - (st.done + 1)) rest.length with h | h <;>
          rcases Nat.le_total (k - st.done) (rest.length + 1) with h' | h' <;>
          simp [Nat.min_def, h, h', if_pos, if_neg] <;> omega

lemma fiatPhase_stopped_immediately (o : Oracle) (base : String)
    (s e tc tf ts : Nat) (stopped : Nat → Bool) (fl : List (String × String))
    (idx : Nat) (st : RunSt) (h : stopped st.done = true) :
    fiatPhase o base s e tc tf ts stopped fl idx st = st := by
  cases fl with
  | nil => rfl
  | cons cn rest => rw [fiatPhase, if_pos h]

lemma runWorker_stopAt (o : Oracle) (s e : Nat) (base : String) (top : List Coin)
    (ctbl : CryptoTable) (ftbl : FiatTable) (k : Nat)
    (hrank : o.rank = .ok top) (hk : k ≤ top.length) :
    (runWorker o s e base (fun i => decide (k ≤ i)) ctbl ftbl).outcome
      = .ok ⟨(top.take k).map (cryptoSummaryOf o), []⟩ := by
  obtain ⟨c1, c2, c3⟩ := cryptoPhase_stopAt o top.length k top 0
    ⟨[], [], [], [], ctbl, ftbl, 1, 0⟩
  simp only [runWorker, hrank]
  have hdone : (cryptoPhase o top.length (fun i => decide (k ≤ i)) top 0
      ⟨[], [], [], [], ctbl, ftbl, 1, 0⟩).done = k := by
    rw [c3]
    show 0 + min (k - 0) top.length = k
    omega
  rw [fiatPhase_stopped_immediately o base s e top.length fiatsList.length
    (top.length + fiatsList.length) _ fiatsList 0 _ (by rw [hdone]; simp)]
  rw [c1, c2]
  simp

/-- C3: if the cooperative stop flag becomes set after `k` of the 20 crypto
entities complete (`k ≤ 20`), the run still ends in `finished.emit`
(success), with exactly those `k` crypto summaries and zero fiat summaries;
and the outcome is unchanged under any change of the cache-write failure
behaviour, so a failed `save_*_cache` never alters an in-memory summary. -/
theorem cancellation_partial_result (o : Oracle) (s e : Nat) (base : String)
    (top : List Coin) (ctbl : CryptoTable) (ftbl : FiatTable) (k : Nat)
    (hrank : o.rank = .ok top) (hlen : top.length = 20) (hk : k ≤ 20) :
    ∃ r : AcquisitionResult,
      (runWorker o s e base (fun i => decide (k ≤ i)) ctbl ftbl).outcome = .ok r
      ∧ r.cryptos = (top.take k).map (cryptoSummaryOf o)
      ∧ r.cryptos.length = k
      ∧ r.fiats = []
      ∧ ∀ o' : Oracle, o'.rank = o.rank → o'.chart = o.chart →
          (runWorker o' s e base (fun i => decide (k ≤ i)) ctbl ftbl).outcome
            = (runWorker o s e base (fun i => decide (k ≤ i)) ctbl ftbl).outcome := by
  refine ⟨⟨(top.take k).map (cryptoSummaryOf o), []⟩,
    runWorker_stopAt o s e base top ctbl ftbl k hrank (by omega), rfl, ?_, rfl, ?_⟩
  · rw [List.length_map, List.length_take, hlen]
    omega
  · intro o' h1 h2
    rw [runWorker_stopAt o' s e base top ctbl ftbl k (by rw [h1, hrank]) (by omega),
      runWorker_stopAt o s e base top ctbl ftbl k hrank (by omega)]
    refine congrArg _ ?_
    refine congrArg₂ _ ?_ rfl
    apply List.map_congr_left
    intro c _
    unfold cryptoSummaryOf cryptoFetch
    rw [h2]

/-- Witness for C3: over `oW`, stopping after 5 completed crypto entities
yields a success with exactly 5 crypto summaries and no fiats. -/
theorem cancellation_partial_result_witness :
    ∃ r : AcquisitionResult,
      (runWorker oW 0 1 "USD" (fun i => decide (5 ≤ i)) [] []).outcome = .ok r
      ∧ r.cryptos = (coinsW.take 5).map (cryptoSummaryOf oW)
      ∧ r.cryptos.length = 5
      ∧ r.fiats = []
      ∧ ∀ o' : Oracle, o'.rank = oW.rank → o'.chart = oW.chart →
          (runWorker o' 0 1 "USD" (fun i => decide (5 ≤ i)) [] []).outcome
            = (runWorker oW 0 1 "USD" (fun i => decide (5 ≤ i)) [] []).outcome :=
  cancellation_partial_result oW 0 1 "USD" coinsW [] [] 5 rfl (by decide) (by decide)

/-! ## Per-entity failure isolation -/

lemma mem_cryptoLogsList_of_fail (o : Oracle) (tc : Nat) (c : Coin) (msg : String)
    (hfail : o.chart c.id = .error msg) :
    ∀ (coins : List Coin) (idx : Nat), c ∈ coins →
      ("Failed loading " ++ c.name ++ ": " ++ msg) ∈ cryptoLogsList o tc idx coins
  | [], _, h => absurd h (List.not_mem_nil c)
  | c' :: rest, idx, h => by
    rw [cryptoLogsList]
    rcases List.mem_cons.1 h with rfl | h'
    · apply List.mem_append.2
      left
      unfold cryptoEntityLogs cryptoFetch
      rw [hfail]
      simp
    · exact List.mem_append.2
        (Or.inr (mem_cryptoLogsList_of_fail o tc c msg hfail rest (idx + 1) h'))

lemma mem_fiatLogsList_of_fail (o : Oracle) (base : String) (s e tf : Nat)
    (cn : String × String) (msg : String) (hne : cn.1 ≠ base)
    (hfail : o.download (cn.1 ++ base ++ "=X") = .error msg) :
    ∀ (fl : List (String × String)) (idx : Nat), cn ∈ fl →
      ("Failed loading fiat " ++ cn.2 ++ ": " ++ msg)
        ∈ fiatLogsList o base s e tf idx fl
  | [], _, h => absurd h (List.not_mem_nil cn)
  | cn' :: rest, idx, h => by
    rw [fiatLogsList]
    rcases List.mem_cons.1 h with rfl | h'
    · apply List.mem_append.2
      left
      unfold fiatEntityLogs processFiatFetch
      rw [if_neg hne, hfail]
      simp
    · exact List.mem_append.2
        (Or.inr (mem_fiatLogsList_of_fail o base s e tf cn msg hne hfail rest (idx + 1) h'))

/-- C2: a provider-fetch failure for one entity (a crypto whose chart call
raises, or a fiat whose direct download raises) degrades exactly that
entity's summary to a null average and empty history, emits a failure log
line, and leaves the run to continue over the full universe with a success
outcome — the failure never reaches the run-level `error` channel. -/
theorem per_entity_failure_isolated (o : Oracle) (s e : Nat) (base : String)
    (stopped : Nat → Bool) (top : List Coin) (ctbl : CryptoTable) (ftbl : FiatTable)
    (hrank : o.rank = .ok top) (hstop : ∀ i, stopped i = false)
    (i : Nat) (hi : i < top.length) (msgC : String)
    (hfailC : o.chart (top.get ⟨i, hi⟩).id = .error msgC)
    (j : Nat) (hj : j < fiatsList.length) (msgF : String)
    (hneF : (fiatsList.get ⟨j, hj⟩).1 ≠ base)
    (hfailF : o.download ((fiatsList.get ⟨j, hj⟩).1 ++ base ++ "=X") = .error msgF) :
    ∃ r : AcquisitionResult,
      (runWorker o s e base stopped ctbl ftbl).outcome = .ok r
      ∧ r.cryptos.length = top.length
      ∧ r.fiats.length = fiatsList.length
      ∧ r.cryptos[i]? = some ⟨(top.get ⟨i, hi⟩).id, (top.get ⟨i, hi⟩).name, none, []⟩
      ∧ ("Failed loading " ++ (top.get ⟨i, hi⟩).name ++ ": " ++ msgC)
          ∈ (runWorker o s e base stopped ctbl ftbl).logs
      ∧ r.fiats[j]? = some ⟨(fiatsList.get ⟨j, hj⟩).1, (fiatsList.get ⟨j, hj⟩).2, none, []⟩
      ∧ ("Failed loading fiat " ++ (fiatsList.get ⟨j, hj⟩).2 ++ ": " ++ msgF)
          ∈ (runWorker o s e base stopped ctbl ftbl).logs := by
  obtain ⟨c1, c2, c3, c4, c5⟩ := cryptoPhase_noStop o top.length stopped hstop top 0
    ⟨[], [], [], [], ctbl, ftbl, 1, 0⟩
  obtain ⟨g1, g2, g3, g4, g5⟩ := fiatPhase_noStop o base s e top.length
    fiatsList.length (top.length + fiatsList.length) stopped hstop fiatsList 0
    (cryptoPhase o top.length stopped top 0 ⟨[], [], [], [], ctbl, ftbl, 1, 0⟩)
  simp only [runWorker, hrank]
  refine ⟨_, rfl, ?_, ?_, ?_, ?_, ?_, ?_⟩
  · rw [g1, c1]
    simp
  · rw [g2, c2]
    simp
  · rw [g1, c1]
    simp only [List.nil_append]
    rw [List.getElem?_map, List.getElem?_eq_getElem hi]
    show some (cryptoSummaryOf o (top.get ⟨i, hi⟩)) = _
    unfold cryptoSummaryOf cryptoFetch
    rw [hfailC]
  · rw [g5, c5]
    simp only [List.nil_append, List.append_assoc]
    apply List.mem_append.2
    left
    exact mem_cryptoLogsList_of_fail o top.length (top.get ⟨i, hi⟩) msgC hfailC top 0
      (top.get_mem i hi)
  · rw [g2, c2]
    simp only [List.nil_append]
    rw [List.getElem?_map, List.getElem?_eq_getElem hj]
    show some (fiatSummaryOf o base s e (fiatsList.get ⟨j, hj⟩)) = _
    unfold fiatSummaryOf processFiatFetch
    rw [if_neg hneF, hfailF]
  · rw [g5, c5]
    simp only [List.nil_append, List.append_assoc]
    apply List.mem_append.2
    right
    exact mem_fiatLogsList_of_fail o base s e fiatsList.length
      (fiatsList.get ⟨j, hj⟩) msgF hneF hfailF fiatsList 0 (fiatsList.get_mem j hj)

/-- An oracle for C2's witness: the second coin's chart call raises `boom`
and the direct download for `GBP` raises `net`; everything else succeeds. -/
def oF : Oracle where
  rank := .ok [⟨"btc", "Bitcoin"⟩, ⟨"eth", "Ethereum"⟩]
  chart := fun cid => if cid = "eth" then .error "boom" else .ok []
  download := fun t => if t = "GBPUSD=X" then .error "net" else .ok []
  cryptoSaveFail := fun _ => none
  fiatSaveFail := fun _ => none

/-- Witness for C2 over `oF`: the failing crypto (`eth`) and the failing
fiat (`GBP`) both degrade to null/empty with a log line, and the run still
finishes with the full universe. -/
theorem per_entity_failure_isolated_witness :
    ∃ r : AcquisitionResult,
      (runWorker oF 0 1 "USD" (fun _ => false) [] []).outcome = .ok r
      ∧ r.cryptos.length = 2
      ∧ r.fiats.length = 10
      ∧ r.cryptos[1]? = some ⟨"eth", "Ethereum", none, []⟩
      ∧ ("Failed loading " ++ "Ethereum" ++ ": " ++ "boom")
          ∈ (runWorker oF 0 1 "USD" (fun _ => false) [] []).logs
      ∧ r.fiats[2]? = some ⟨"GBP", "British Pound", none, []⟩
      ∧ ("Failed loading fiat " ++ "British Pound" ++ ": " ++ "net")
          ∈ (runWorker oF 0 1 "USD" (fun _ => false) [] []).logs :=
  per_entity_failure_isolated oF 0 1 "USD" (fun _ => false)
    [⟨"btc", "Bitcoin"⟩, ⟨"eth", "Ethereum"⟩] [] [] rfl (fun _ => rfl)
    1 (by decide) "boom" rfl 2 (by decide) "net" (by decide) rfl
